import Mathlib

/-!
Verification of the sharded concurrent map (`ConcurrentMap`) of the
`logger` package, a shallow embedding of `logwrapper.go` together with
proofs of the specification's claims.

The concurrency of the source is modelled sequentially: every operation of
the source acquires one partition's lock for its whole duration, so with no
concurrent mutation each operation is a function from the map state to the
new map state and its results, which is what the embedding captures.  Go
`interface{}` values are modelled as `Option α`, with `none` standing for
the untyped `nil` that a Go map lookup returns on a miss.  A Go
`map[string]interface{}` is modelled as an association list that never
holds two bindings for one key (Go map assignment replaces the binding).
-/

namespace Logger

/-- Number of shards: `totalShardCount = 32` in the source. -/
def totalShardCount : Nat := 32

/-- UTF-8 bytes of one character, the bytes Go indexes in a string. -/
def charBytes (c : Char) : List Nat :=
  let v := c.toNat
  if v < 128 then [v]
  else if v < 2048 then [192 + v / 64, 128 + v % 64]
  else if v < 65536 then [224 + v / 4096, 128 + v / 64 % 64, 128 + v % 64]
  else [240 + v / 262144, 128 + v / 4096 % 64, 128 + v / 64 % 64, 128 + v % 64]

/-- The byte sequence of a Go string (UTF-8 encoding of its characters). -/
def stringBytes (s : String) : List Nat := s.data.flatMap charBytes

/-- `fnv32` from the source: starting from seed `2166136261`, for each byte
of the key in order multiply the accumulator by the prime `16777619` and
then XOR in the byte, on 32-bit unsigned arithmetic (`uint32`). -/
def fnv32 (key : String) : Nat :=
  (stringBytes key).foldl (fun hash b => ((hash * 16777619) % 4294967296) ^^^ b) 2166136261

/-- The contents of one shard's `items` field: a `map[string]interface{}`,
modelled as an association list from keys to (possibly `nil`) values. -/
abbrev GoMap (α : Type) := List (String × Option α)

/-- Go map lookup `v, ok := items[key]`: the first binding of `key`, or the
zero value `nil` with `ok = false` when `key` is absent. -/
def goLookup : GoMap α → String → Option α × Bool
  | [], _ => (none, false)
  | p :: rest, key => if p.1 == key then (p.2, true) else goLookup rest key

/-- Go map deletion `delete(items, key)`: all bindings of `key` are gone. -/
def goDelete : GoMap α → String → GoMap α
  | [], _ => []
  | p :: rest, key => if p.1 == key then goDelete rest key else p :: goDelete rest key

/-- Go map assignment `items[key] = value`: `key` is bound to `value` and
any previous binding of `key` is gone. -/
def goInsert (items : GoMap α) (key : String) (value : Option α) : GoMap α :=
  (key, value) :: goDelete items key

/-- `ConcurrentMap` is a fixed array of `totalShardCount` shards; the model
keeps only each shard's `items` map (locks serialize each operation). -/
def ConcurrentMap (α : Type) := Fin totalShardCount → GoMap α

/-- `NewConcurrentMap` builds the `totalShardCount` shards, each with an
empty `items` map. -/
def NewConcurrentMap : ConcurrentMap α := fun _ => []

/-- The index `uint(fnv32(key)) % uint(totalShardCount)` used by `GetShard`. -/
def shardIndex (key : String) : Fin totalShardCount :=
  ⟨fnv32 key % totalShardCount, Nat.mod_lt _ (by decide)⟩

/-- `GetShard` returns the shard `m[uint(fnv32(key))%uint(totalShardCount)]`. -/
def GetShard (m : ConcurrentMap α) (key : String) : GoMap α := m (shardIndex key)

/-- `Set`: lock the key's shard and run `shard.items[key] = value`. -/
def Set (m : ConcurrentMap α) (key : String) (value : Option α) : ConcurrentMap α :=
  Function.update m (shardIndex key) (goInsert (GetShard m key) key value)

/-- `MSet` applies `Set` to each entry of the data in turn. -/
def MSet (m : ConcurrentMap α) (data : List (String × Option α)) : ConcurrentMap α :=
  data.foldl (fun acc p => Set acc p.1 p.2) m

/-- `Get`: read-lock the key's shard and run `val, ok := shard.items[key]`. -/
def Get (m : ConcurrentMap α) (key : String) : Option α × Bool :=
  goLookup (GetShard m key) key

/-- `Has`: read-lock the key's shard, `_, ok := shard.items[key]`, return `ok`. -/
def Has (m : ConcurrentMap α) (key : String) : Bool :=
  (goLookup (GetShard m key) key).2

/-- The combinator type of `UpdateOrInsert`:
`func(exist bool, valueInMap interface{}, newValue interface{}) interface{}`. -/
abbrev UpdateOrInsertCb (α : Type) := Bool → Option α → Option α → Option α

/-- `UpdateOrInsert`: under the shard's write lock, `v, ok := shard.items[key]`,
`res = cb(ok, v, value)`, `shard.items[key] = res`; returns the new map state
paired with `res`. -/
def UpdateOrInsert (m : ConcurrentMap α) (key : String) (value : Option α)
    (cb : UpdateOrInsertCb α) : ConcurrentMap α × Option α :=
  let p := goLookup (GetShard m key) key
  let res := cb p.2 p.1 value
  (Function.update m (shardIndex key) (goInsert (GetShard m key) key res), res)

/-- `SetIfAbsent`: under the shard's write lock, `_, ok := shard.items[key]`;
when `!ok` run `shard.items[key] = value`; returns the new state and `!ok`. -/
def SetIfAbsent (m : ConcurrentMap α) (key : String) (value : Option α) :
    ConcurrentMap α × Bool :=
  let ok := (goLookup (GetShard m key) key).2
  (if ok then m else Function.update m (shardIndex key) (goInsert (GetShard m key) key value),
   !ok)

/-- `Remove`: lock the key's shard and run `delete(shard.items, key)`. -/
def Remove (m : ConcurrentMap α) (key : String) : ConcurrentMap α :=
  Function.update m (shardIndex key) (goDelete (GetShard m key) key)

/-- `Pop`: under the shard's write lock, `v, exists = shard.items[key]` then
`delete(shard.items, key)`; returns the new state and `(v, exists)`. -/
def Pop (m : ConcurrentMap α) (key : String) : ConcurrentMap α × (Option α × Bool) :=
  let p := goLookup (GetShard m key) key
  (Function.update m (shardIndex key) (goDelete (GetShard m key) key), p)

/-- `Count` sums `len(shard.items)` over the shards in index order. -/
def Count (m : ConcurrentMap α) : Nat :=
  (List.finRange totalShardCount).foldl (fun count i => count + (m i).length) 0

/-- `IsEmpty` is `m.Count() == 0`. -/
def IsEmpty (m : ConcurrentMap α) : Bool := Count m == 0

/-- The `Tuple` items emitted during iteration. -/
structure Tuple (α : Type) where
  Key : String
  Val : Option α
deriving DecidableEq

/-- `snapshot` fills one channel per shard with that shard's entries (the
channel is sized to the shard's entry count); the model records each
channel's full contents. -/
def snapshot (m : ConcurrentMap α) : List (List (Tuple α)) :=
  (List.finRange totalShardCount).map (fun i => (m i).map (fun p => Tuple.mk p.1 p.2))

/-- `fanIn` forwards every item of every per-shard channel into the single
output channel and closes it once all inputs are drained.  The interleaving
of the forwarding goroutines is nondeterministic; the model fixes one drain
order (shard index order), which is immaterial to every content claim since
they are order-insensitive. -/
def fanIn (channels : List (List (Tuple α))) : List (Tuple α) := channels.flatten

/-- `Iterator` drained to completion: the fan-in of the snapshot channels. -/
def Iterator (m : ConcurrentMap α) : List (Tuple α) := fanIn (snapshot m)

/-- `IteratorBuffered` differs from `Iterator` only by pre-sizing the output
channel; the drained contents are the same. -/
def IteratorBuffered (m : ConcurrentMap α) : List (Tuple α) := fanIn (snapshot m)

/-- `Items` drains `IteratorBuffered` into a fresh `map[string]interface{}`
via `tmp[item.Key] = item.Val`. -/
def Items (m : ConcurrentMap α) : GoMap α :=
  (IteratorBuffered m).foldl (fun tmp t => goInsert tmp t.Key t.Val) []

/-- `Keys` collects every shard's keys through a channel sized by `Count`;
the model records the collected keys in shard index order. -/
def Keys (m : ConcurrentMap α) : List String :=
  ((List.finRange totalShardCount).map (fun i => (m i).map Prod.fst)).flatten

/-- A combinator that may panic, modelled as `Except ε`: `.error` is a panic
escaping the combinator. -/
abbrev UpdateOrInsertCbE (ε α : Type) := Bool → Option α → Option α → Except ε (Option α)

/-- `UpdateOrInsert` run with a combinator that may panic.  Mirrors the Go
control flow: `shard.Lock()` is taken first and `shard.Unlock()` is only the
statement after the store — it is not deferred — so when `cb` panics the
store and the unlock never execute.  Returns the final map state, whether
the shard's lock is still held when the call is left, and the outcome. -/
def UpdateOrInsertPanic (m : ConcurrentMap α) (key : String) (value : Option α)
    (cb : UpdateOrInsertCbE ε α) : ConcurrentMap α × Bool × Except ε (Option α) :=
  let p := goLookup (GetShard m key) key
  match cb p.2 p.1 value with
  | .error e => (m, true, .error e)
  | .ok res =>
      (Function.update m (shardIndex key) (goInsert (GetShard m key) key res), false, .ok res)

/-- Well-formedness every reachable map state enjoys: within a shard no key
is bound twice, and every key sits in the shard the router selects for it. -/
def WF (m : ConcurrentMap α) : Prop :=
  ∀ i : Fin totalShardCount,
    ((m i).map Prod.fst).Nodup ∧ ∀ p ∈ m i, shardIndex p.1 = i

instance (m : ConcurrentMap α) : Decidable (WF m) := by
  unfold WF; infer_instance

/-! ### Lemmas about the Go map model -/

theorem goLookup_goInsert_self (items : GoMap α) (key : String) (value : Option α) :
    goLookup (goInsert items key value) key = (value, true) := by
  simp [goInsert, goLookup]

theorem goLookup_goDelete_ne (items : GoMap α) {key key' : String} (h : key' ≠ key) :
    goLookup (goDelete items key) key' = goLookup items key' := by
  induction items with
  | nil => rfl
  | cons p rest ih =>
    have h0 : ¬ key = key' := fun e => h e.symm
    by_cases h1 : p.1 = key
    · simp [goDelete, goLookup, h1, h0, ih]
    · by_cases h2 : p.1 = key'
      · simp [goDelete, goLookup, h1, h2, h]
      · simp [goDelete, goLookup, h1, h2, ih]

theorem goLookup_goInsert_ne (items : GoMap α) {key key' : String} (h : key' ≠ key)
    (value : Option α) :
    goLookup (goInsert items key value) key' = goLookup items key' := by
  have h2 : ¬ key = key' := fun e => h e.symm
  simp [goInsert, goLookup, h2, goLookup_goDelete_ne items h]

theorem goLookup_goDelete_self (items : GoMap α) (key : String) :
    goLookup (goDelete items key) key = (none, false) := by
  induction items with
  | nil => rfl
  | cons p rest ih =>
    by_cases h1 : p.1 = key
    · simp [goDelete, h1, ih]
    · simp [goDelete, goLookup, h1, ih]

theorem goDelete_of_absent {items : GoMap α} {key : String}
    (h : (goLookup items key).2 = false) : goDelete items key = items := by
  induction items with
  | nil => rfl
  | cons p rest ih =>
    by_cases h1 : p.1 = key
    · simp [goLookup, h1] at h
    · simp [goLookup, h1] at h
      simp [goDelete, h1, ih h]

theorem goDelete_sublist (items : GoMap α) (key : String) :
    (goDelete items key).Sublist items := by
  induction items with
  | nil => simp [goDelete]
  | cons p rest ih =>
    by_cases h1 : p.1 = key
    · simp only [goDelete, h1, beq_self_eq_true, if_true]
      exact ih.cons p
    · simp only [goDelete, beq_iff_eq, h1, if_false]
      exact ih.cons₂ p

theorem mem_goDelete_ne {items : GoMap α} {key : String} :
    ∀ p ∈ goDelete items key, p.1 ≠ key := by
  induction items with
  | nil => simp [goDelete]
  | cons q rest ih =>
    by_cases h1 : q.1 = key
    · simpa [goDelete, h1] using ih
    · intro p hp
      rcases (by simpa [goDelete, h1] using hp : p = q ∨ p ∈ goDelete rest key) with rfl | hp'
      · exact h1
      · exact ih p hp'

theorem nodup_keys_goDelete {items : GoMap α} (key : String)
    (h : (items.map Prod.fst).Nodup) : ((goDelete items key).map Prod.fst).Nodup :=
  h.sublist ((goDelete_sublist items key).map Prod.fst)

theorem nodup_keys_goInsert {items : GoMap α} (key : String) (value : Option α)
    (h : (items.map Prod.fst).Nodup) : ((goInsert items key value).map Prod.fst).Nodup := by
  simp only [goInsert, List.map_cons, List.nodup_cons]
  refine ⟨?_, nodup_keys_goDelete key h⟩
  intro hk
  rcases List.mem_map.1 hk with ⟨p, hp, hpk⟩
  exact mem_goDelete_ne p hp hpk

theorem goLookup_eq_some_iff {items : GoMap α} (h : (items.map Prod.fst).Nodup)
    {key : String} {v : Option α} :
    goLookup items key = (v, true) ↔ (key, v) ∈ items := by
  induction items with
  | nil => simp [goLookup]
  | cons q rest ih =>
    obtain ⟨k0, v0⟩ := q
    simp only [List.map_cons, List.nodup_cons] at h
    by_cases h1 : k0 = key
    · subst h1
      simp only [goLookup, beq_self_eq_true, if_true, List.mem_cons]
      constructor
      · intro he
        exact Or.inl (by cases he; rfl)
      · rintro (he | hm)
        · cases he; rfl
        · exact absurd (List.mem_map.2 ⟨_, hm, rfl⟩) h.1

    · simp only [goLookup, beq_iff_eq, h1, if_false, List.mem_cons]
      rw [ih h.2]
      constructor
      · exact Or.inr
      · rintro (he | hm)
        · cases he; exact absurd rfl h1
        · exact hm

theorem goLookup_mem {items : GoMap α} {key : String} {v : Option α}
    (h : goLookup items key = (v, true)) : (key, v) ∈ items := by
  induction items with
  | nil => simp [goLookup] at h
  | cons q rest ih =>
    simp only [goLookup] at h
    by_cases h1 : q.1 = key
    · rw [if_pos (by simp [h1])] at h
      have hv : q.2 = v := congrArg Prod.fst h
      exact List.mem_cons.2 (Or.inl (by rw [← h1, ← hv]))
    · rw [if_neg (by simp [h1])] at h
      exact List.mem_cons.2 (Or.inr (ih h))

theorem goLookup_found_of_mem {items : GoMap α} {key : String}
    (h : ∃ v, (key, v) ∈ items) : (goLookup items key).2 = true := by
  rcases h with ⟨v, hv⟩
  induction items with
  | nil => simp at hv
  | cons q rest ih =>
    by_cases h1 : q.1 = key
    · simp [goLookup, h1]
    · rcases List.mem_cons.1 hv with rfl | hm
      · exact absurd rfl h1
      · simp only [goLookup, beq_iff_eq, h1, if_false]
        exact ih hm

theorem goLookup_eq_none_of_not_found {items : GoMap α} {key : String}
    (h : (goLookup items key).2 = false) : goLookup items key = (none, false) := by
  induction items with
  | nil => rfl
  | cons p rest ih =>
    by_cases h1 : p.1 = key
    · simp [goLookup, h1] at h
    · simp only [goLookup, beq_iff_eq, h1, if_false] at h ⊢
      exact ih h

/-! ### Well-formedness -/

theorem WF_NewConcurrentMap : WF (NewConcurrentMap (α := α)) := by
  intro i
  exact ⟨List.nodup_nil, by intro p hp; simp [NewConcurrentMap] at hp⟩

theorem WF_insertShard {m : ConcurrentMap α} (h : WF m) (key : String) (value : Option α) :
    WF (Function.update m (shardIndex key) (goInsert (GetShard m key) key value)) := by
  intro i
  by_cases hi : i = shardIndex key
  · subst hi
    rw [Function.update_same]
    refine ⟨nodup_keys_goInsert key value (h _).1, ?_⟩
    intro p hp
    rcases List.mem_cons.1 hp with rfl | hp'
    · rfl
    · exact (h _).2 p ((goDelete_sublist _ _).subset hp')
  · rw [Function.update_noteq hi]
    exact h i

theorem WF_deleteShard {m : ConcurrentMap α} (h : WF m) (key : String) :
    WF (Function.update m (shardIndex key) (goDelete (GetShard m key) key)) := by
  intro i
  by_cases hi : i = shardIndex key
  · subst hi
    rw [Function.update_same]
    refine ⟨nodup_keys_goDelete key (h _).1, ?_⟩
    intro p hp
    exact (h _).2 p ((goDelete_sublist _ _).subset hp)
  · rw [Function.update_noteq hi]
    exact h i

theorem WF_Set {m : ConcurrentMap α} (h : WF m) (key : String) (value : Option α) :
    WF (Set m key value) := WF_insertShard h key value

theorem WF_MSet {m : ConcurrentMap α} (h : WF m) (data : List (String × Option α)) :
    WF (MSet m data) := by
  induction data generalizing m with
  | nil => exact h
  | cons p rest ih => exact ih (WF_Set h p.1 p.2)

theorem WF_SetIfAbsent {m : ConcurrentMap α} (h : WF m) (key : String) (value : Option α) :
    WF (SetIfAbsent m key value).1 := by
  unfold SetIfAbsent
  dsimp only
  split
  · exact h
  · exact WF_insertShard h key value

theorem WF_UpdateOrInsert {m : ConcurrentMap α} (h : WF m) (key : String) (value : Option α)
    (cb : UpdateOrInsertCb α) : WF (UpdateOrInsert m key value cb).1 :=
  WF_insertShard h key _

theorem WF_Remove {m : ConcurrentMap α} (h : WF m) (key : String) :
    WF (Remove m key) := WF_deleteShard h key

theorem WF_Pop {m : ConcurrentMap α} (h : WF m) (key : String) :
    WF (Pop m key).1 := WF_deleteShard h key

theorem WF_key_unique {m : ConcurrentMap α} (h : WF m) {k : String}
    {i j : Fin totalShardCount}
    (hi : k ∈ (m i).map Prod.fst) (hj : k ∈ (m j).map Prod.fst) :
    i = j ∧ i = shardIndex k := by
  rcases List.mem_map.1 hi with ⟨p, hp, rfl⟩
  rcases List.mem_map.1 hj with ⟨q, hq, hqk⟩
  have h1 := (h i).2 p hp
  have h2 := (h j).2 q hq
  constructor
  · rw [← h1, ← h2, hqk]
  · exact h1.symm

/-! ### Single-key operations at the map level -/

theorem Get_Set_self (m : ConcurrentMap α) (key : String) (value : Option α) :
    Get (Set m key value) key = (value, true) := by
  unfold Get Set GetShard
  rw [Function.update_same]
  exact goLookup_goInsert_self _ _ _

theorem Get_Set_ne (m : ConcurrentMap α) {key key' : String} (h : key' ≠ key)
    (value : Option α) : Get (Set m key value) key' = Get m key' := by
  unfold Get Set GetShard
  by_cases hs : shardIndex key' = shardIndex key
  · rw [hs, Function.update_same]
    exact goLookup_goInsert_ne _ h _
  · rw [Function.update_noteq hs]

theorem Get_Remove_self (m : ConcurrentMap α) (key : String) :
    Get (Remove m key) key = (none, false) := by
  unfold Get Remove GetShard
  rw [Function.update_same]
  exact goLookup_goDelete_self _ _

theorem Get_Remove_ne (m : ConcurrentMap α) {key key' : String} (h : key' ≠ key) :
    Get (Remove m key) key' = Get m key' := by
  unfold Get Remove GetShard
  by_cases hs : shardIndex key' = shardIndex key
  · rw [hs, Function.update_same]
    exact goLookup_goDelete_ne _ h
  · rw [Function.update_noteq hs]

theorem Has_eq_Get_snd (m : ConcurrentMap α) (key : String) :
    Has m key = (Get m key).2 := rfl

theorem Remove_absent {m : ConcurrentMap α} {key : String} (h : Has m key = false) :
    Remove m key = m := by
  unfold Remove
  rw [goDelete_of_absent h]
  exact Function.update_eq_self _ m

theorem Get_absent {m : ConcurrentMap α} {key : String} (h : Has m key = false) :
    Get m key = (none, false) := goLookup_eq_none_of_not_found h

/-! ### Aggregate views -/

theorem foldl_add_eq_sum {ι : Type} (l : List ι) (f : ι → Nat) (n : Nat) :
    l.foldl (fun c i => c + f i) n = n + (l.map f).sum := by
  induction l generalizing n with
  | nil => simp
  | cons a rest ih => simp [ih, Nat.add_assoc]

theorem Count_eq_sum (m : ConcurrentMap α) :
    Count m = ((List.finRange totalShardCount).map (fun i => (m i).length)).sum := by
  unfold Count
  simpa using foldl_add_eq_sum (List.finRange totalShardCount) (fun i => (m i).length) 0

theorem length_Keys (m : ConcurrentMap α) : (Keys m).length = Count m := by
  rw [Keys, Count_eq_sum, List.length_flatten, List.map_map]
  simp [Function.comp_def]

theorem nodup_Keys {m : ConcurrentMap α} (h : WF m) : (Keys m).Nodup := by
  rw [Keys]
  apply List.nodup_flatten.2
  constructor
  · intro l hl
    rcases List.mem_map.1 hl with ⟨i, _, rfl⟩
    exact (h i).1
  · rw [List.pairwise_map]
    refine (List.nodup_finRange totalShardCount).imp ?_
    intro i j hij k hk hk'
    exact hij (WF_key_unique h hk hk').1

theorem mem_Keys {m : ConcurrentMap α} (h : WF m) (k : String) :
    k ∈ Keys m ↔ Has m k = true := by
  rw [Keys]
  constructor
  · intro hk
    rcases List.mem_flatten.1 hk with ⟨l, hl, hkl⟩
    rcases List.mem_map.1 hl with ⟨i, _, rfl⟩
    rcases List.mem_map.1 hkl with ⟨p, hp, rfl⟩
    have hroute : shardIndex p.1 = i := (h i).2 p hp
    unfold Has GetShard
    apply goLookup_found_of_mem
    refine ⟨p.2, ?_⟩
    rw [hroute]
    simpa using hp
  · intro hk
    unfold Has GetShard at hk
    have hx : goLookup (m (shardIndex k)) k = ((goLookup (m (shardIndex k)) k).1, true) := by
      rw [← hk]
    have hmem : (k, (goLookup (m (shardIndex k)) k).1) ∈ m (shardIndex k) := goLookup_mem hx
    apply List.mem_flatten.2
    refine ⟨(m (shardIndex k)).map Prod.fst, ?_, ?_⟩
    · exact List.mem_map.2 ⟨shardIndex k, List.mem_finRange _, rfl⟩
    · exact List.mem_map.2 ⟨_, hmem, rfl⟩

theorem IsEmpty_iff (m : ConcurrentMap α) : IsEmpty m = true ↔ Count m = 0 := by
  simp [IsEmpty]

theorem Iterator_map_Key (m : ConcurrentMap α) :
    (Iterator m).map Tuple.Key = Keys m := by
  unfold Iterator fanIn snapshot Keys
  rw [List.map_flatten, List.map_map]
  simp [Function.comp_def, List.map_map]

theorem length_Iterator (m : ConcurrentMap α) : (Iterator m).length = Count m := by
  rw [← length_Keys, ← Iterator_map_Key, List.length_map]

theorem mem_Iterator {m : ConcurrentMap α} (h : WF m) (k : String) (v : Option α) :
    Tuple.mk k v ∈ Iterator m ↔ Get m k = (v, true) := by
  unfold Iterator fanIn snapshot
  constructor
  · intro ht
    rcases List.mem_flatten.1 ht with ⟨l, hl, htl⟩
    rcases List.mem_map.1 hl with ⟨i, _, rfl⟩
    rcases List.mem_map.1 htl with ⟨p, hp, hpt⟩
    have hk : p.1 = k := congrArg Tuple.Key hpt
    have hv : p.2 = v := congrArg Tuple.Val hpt
    have hroute := (h i).2 p hp
    unfold Get GetShard
    rw [← hk, ← hv, hroute]
    exact (goLookup_eq_some_iff (h i).1).2 (by simpa using hp)
  · intro hg
    have hmem : (k, v) ∈ m (shardIndex k) := goLookup_mem hg
    exact List.mem_flatten.2
      ⟨(m (shardIndex k)).map (fun p => Tuple.mk p.1 p.2),
       List.mem_map.2 ⟨shardIndex k, List.mem_finRange _, rfl⟩,
       List.mem_map.2 ⟨(k, v), hmem, rfl⟩⟩

theorem goLookup_foldl_goInsert_of_not_mem {L : List (Tuple α)} {k : String}
    (h : ∀ t ∈ L, t.Key ≠ k) (init : GoMap α) :
    goLookup (L.foldl (fun tmp t => goInsert tmp t.Key t.Val) init) k = goLookup init k := by
  induction L generalizing init with
  | nil => rfl
  | cons t rest ih =>
    rw [List.foldl_cons, ih (fun t' ht' => h t' (List.mem_cons.2 (Or.inr ht')))]
    exact goLookup_goInsert_ne init (fun e => h t (List.mem_cons_self t rest) e.symm) t.Val

theorem goLookup_foldl_goInsert_of_mem {L : List (Tuple α)}
    (h : (L.map Tuple.Key).Nodup) {k : String} {v : Option α}
    (hmem : Tuple.mk k v ∈ L) (init : GoMap α) :
    goLookup (L.foldl (fun tmp t => goInsert tmp t.Key t.Val) init) k = (v, true) := by
  induction L generalizing init with
  | nil => simp at hmem
  | cons t rest ih =>
    rw [List.foldl_cons]
    simp only [List.map_cons, List.nodup_cons] at h
    rcases List.mem_cons.1 hmem with rfl | hmem'
    · have hknot : ∀ t' ∈ rest, t'.Key ≠ k := by
        intro t' ht' hkk
        apply h.1
        show k ∈ List.map Tuple.Key rest
        rw [← hkk]
        exact List.mem_map.2 ⟨t', ht', rfl⟩
      rw [goLookup_foldl_goInsert_of_not_mem hknot]
      exact goLookup_goInsert_self _ _ _
    · exact ih h.2 hmem' _

theorem goLookup_Items {m : ConcurrentMap α} (h : WF m) (k : String) :
    goLookup (Items m) k = Get m k := by
  have hiter : IteratorBuffered m = Iterator m := rfl
  by_cases hk : Has m k = true
  · have hg : Get m k = ((Get m k).1, true) := by
      unfold Has at hk
      unfold Get
      rw [← hk]
    have hmem : Tuple.mk k (Get m k).1 ∈ Iterator m := (mem_Iterator h k _).2 hg.symm.symm
    have hnodup : ((Iterator m).map Tuple.Key).Nodup := by
      rw [Iterator_map_Key]
      exact nodup_Keys h
    unfold Items
    rw [hiter, goLookup_foldl_goInsert_of_mem hnodup hmem]
    exact hg.symm
  · have habs : ∀ t ∈ Iterator m, t.Key ≠ k := by
      intro t ht hk'
      have hg : Get m t.Key = (t.Val, true) := (mem_Iterator h t.Key t.Val).1 ht
      have : Has m t.Key = true := by rw [Has_eq_Get_snd, hg]
      rw [hk'] at this
      exact hk this
    unfold Items
    rw [hiter, goLookup_foldl_goInsert_of_not_mem habs]
    exact (Get_absent (by simpa using hk)).symm

/-! ### The router hash, as the spec words it -/

/-- The hash as the spec words it: starting from the seed, for each byte of
the key in order, multiply the accumulator by the prime and then XOR in the
byte, all on 32-bit unsigned arithmetic.  Stated as its own recursion to be
compared with the source's `fnv32` fold. -/
def routeHashSpec : Nat → List Nat → Nat
  | hash, [] => hash
  | hash, b :: rest => routeHashSpec (((hash * 16777619) % 4294967296) ^^^ b) rest

theorem foldl_eq_routeHashSpec (bytes : List Nat) (h : Nat) :
    bytes.foldl (fun hash b => ((hash * 16777619) % 4294967296) ^^^ b) h =
      routeHashSpec h bytes := by
  induction bytes generalizing h with
  | nil => rfl
  | cons b rest ih => exact ih _

theorem charBytes_lt (c : Char) : ∀ b ∈ charBytes c, b < 4294967296 := by
  have hv : c.toNat < 4294967296 := c.val.toNat_lt_size
  intro b hb
  simp only [charBytes] at hb
  split at hb
  · simp only [List.mem_cons, List.not_mem_nil, or_false] at hb
    omega
  · split at hb
    · simp only [List.mem_cons, List.not_mem_nil, or_false] at hb
      rcases hb with rfl | rfl <;> omega
    · split at hb
      · simp only [List.mem_cons, List.not_mem_nil, or_false] at hb
        rcases hb with rfl | rfl | rfl <;> omega
      · simp only [List.mem_cons, List.not_mem_nil, or_false] at hb
        rcases hb with rfl | rfl | rfl | rfl <;> omega

theorem fnv32_lt (key : String) : fnv32 key < 4294967296 := by
  unfold fnv32
  have step : ∀ (bytes : List Nat), (∀ b ∈ bytes, b < 4294967296) →
      ∀ h : Nat, h < 4294967296 →
      bytes.foldl (fun hash b => ((hash * 16777619) % 4294967296) ^^^ b) h < 4294967296 := by
    intro bytes
    induction bytes with
    | nil => intro _ h hh; simpa using hh
    | cons b rest ih =>
      intro hb h hh
      simp only [List.foldl_cons]
      refine ih (fun x hx => hb x (List.mem_cons.2 (Or.inr hx))) _ ?_
      have e : (4294967296 : Nat) = 2 ^ 32 := by norm_num
      rw [e]
      refine Nat.xor_lt_two_pow ?_ ?_
      · rw [← e]; exact Nat.mod_lt _ (by norm_num)
      · rw [← e]; exact hb b (List.mem_cons_self b rest)
  refine step _ ?_ _ (by norm_num)
  intro b hb
  rcases List.mem_flatMap.1 (by simpa [stringBytes] using hb) with ⟨c, _, hc⟩
  exact charBytes_lt c b hc

/-! ### `SetIfAbsent` case analysis -/

theorem SetIfAbsent_absent {m : ConcurrentMap α} {key : String} (h : Has m key = false)
    (value : Option α) : SetIfAbsent m key value = (Set m key value, true) := by
  have h' : (goLookup (GetShard m key) key).2 = false := h
  simp [SetIfAbsent, Set, h']

theorem SetIfAbsent_present {m : ConcurrentMap α} {key : String} (h : Has m key = true)
    (value : Option α) : SetIfAbsent m key value = (m, false) := by
  have h' : (goLookup (GetShard m key) key).2 = true := h
  simp [SetIfAbsent, h']

/-! ### Concrete states and combinators used by the spec's scenarios -/

/-- The combinator of the spec scenario: `existed ? current+candidate : candidate`. -/
def addCombinator : UpdateOrInsertCb Int :=
  fun exist current candidate =>
    if exist then some (current.getD 0 + candidate.getD 0) else candidate

/-- The two-entry map of the spec scenario: `set("a",1)` then `set("b",2)`. -/
def mapAB : ConcurrentMap Int :=
  Set (Set NewConcurrentMap "a" (some 1)) "b" (some 2)

/-! ### The claims -/

/-- C1: for every map state, key `k` and value `v`, after `Set k v` a
subsequent `Get k` returns `(v, true)` and `Has k` returns `true`. -/
theorem claim1_set_get_roundtrip (m : ConcurrentMap α) (key : String) (value : Option α) :
    Get (Set m key value) key = (value, true) ∧ Has (Set m key value) key = true := by
  refine ⟨Get_Set_self m key value, ?_⟩
  rw [Has_eq_Get_snd, Get_Set_self]

/-- C2: `UpdateOrInsert k v cb` reads the current `(value, existed)` pair for
`k`, computes the single combinator call `cb existed current v` the source
makes, stores that result under `k` and returns it; and the spec scenario: on
the empty map with the combinator `existed ? current+candidate : candidate`,
candidate 5 returns 5 and a second call with candidate 3 returns 8. -/
theorem claim2_updateOrInsert (m : ConcurrentMap α) (key : String) (value : Option α)
    (cb : UpdateOrInsertCb α) :
    UpdateOrInsert m key value cb =
      (Set m key (cb (Has m key) (Get m key).1 value), cb (Has m key) (Get m key).1 value)
    ∧ (UpdateOrInsert (NewConcurrentMap : ConcurrentMap Int) "c" (some 5) addCombinator).2
        = some 5
    ∧ (UpdateOrInsert
         (UpdateOrInsert (NewConcurrentMap : ConcurrentMap Int) "c" (some 5) addCombinator).1
         "c" (some 3) addCombinator).2 = some 8 :=
  ⟨rfl, by decide, by decide⟩

/-- C3: the code falls short of the claim.  `UpdateOrInsert` does not defer
`shard.Unlock`, so a combinator that panics propagates with the mapping
unchanged for the key — but with the partition's lock still held: on the empty
map and key "c", a panicking combinator yields the unchanged map, lock-held
flag `true`, and the panic as the outcome. -/
theorem claim3_panic_leaves_lock_held :
    UpdateOrInsertPanic (NewConcurrentMap : ConcurrentMap Int) "c" (some 5)
      (fun _ _ _ => Except.error "boom") =
      (NewConcurrentMap, true, Except.error "boom") := rfl

/-- C4: the router selects index `fnv32 k % totalShardCount`; `fnv32` is the
fold that, from seed 2166136261, multiplies by 16777619 and then XORs in each
byte modulo 2^32 (`routeHashSpec`); the hash fits in 32 bits; the index lies
in `[0, totalShardCount)` with `totalShardCount = 32`; `GetShard` reads the
selected index; equal keys always receive the same index. -/
theorem claim4_router (m : ConcurrentMap α) (k k' : String) :
    (shardIndex k).1 = fnv32 k % totalShardCount
    ∧ fnv32 k = routeHashSpec 2166136261 (stringBytes k)
    ∧ fnv32 k < 4294967296
    ∧ (shardIndex k).1 < totalShardCount
    ∧ totalShardCount = 32
    ∧ GetShard m k = m (shardIndex k)
    ∧ (k = k' → shardIndex k = shardIndex k') := by
  refine ⟨rfl, foldl_eq_routeHashSpec _ _, fnv32_lt k, (shardIndex k).2, rfl, rfl, ?_⟩
  intro h
  rw [h]

/-- C5: with no concurrent mutation, draining `Iterator` (and
`IteratorBuffered`, which drains to the same sequence) yields exactly
`Count m` tuples; each stored key appears exactly once, paired with its
stored value, with nothing omitted; and `Items` agrees with `Get` on every
key. -/
theorem claim5_snapshot_complete (m : ConcurrentMap α) (h : WF m) :
    (Iterator m).length = Count m
    ∧ IteratorBuffered m = Iterator m
    ∧ ((Iterator m).map Tuple.Key).Nodup
    ∧ (∀ k v, Tuple.mk k v ∈ Iterator m ↔ Get m k = (v, true))
    ∧ (∀ k, goLookup (Items m) k = Get m k) := by
  refine ⟨length_Iterator m, rfl, ?_, fun k v => mem_Iterator h k v, fun k => goLookup_Items h k⟩
  rw [Iterator_map_Key]
  exact nodup_Keys h

theorem claim5_witness :
    (Iterator mapAB).length = Count mapAB
    ∧ goLookup (Items mapAB) "a" = Get mapAB "a" :=
  ⟨(claim5_snapshot_complete mapAB (by decide)).1,
   (claim5_snapshot_complete mapAB (by decide)).2.2.2.2 "a"⟩

/-- C6: on an absent key, `SetIfAbsent k v1` returns `true` and installs `v1`
(it is exactly `Set k v1`); a second `SetIfAbsent k v2` returns `false` and
leaves the map — hence the stored `v1` — unchanged, so `Get k` still returns
`(v1, true)`. -/
theorem claim6_setIfAbsent (m : ConcurrentMap α) (key : String) (v1 v2 : Option α)
    (h : Has m key = false) :
    (SetIfAbsent m key v1).2 = true
    ∧ (SetIfAbsent m key v1).1 = Set m key v1
    ∧ (SetIfAbsent (SetIfAbsent m key v1).1 key v2).2 = false
    ∧ (SetIfAbsent (SetIfAbsent m key v1).1 key v2).1 = (SetIfAbsent m key v1).1
    ∧ Get (SetIfAbsent (SetIfAbsent m key v1).1 key v2).1 key = (v1, true) := by
  have e1 := SetIfAbsent_absent h v1
  have f1 : (SetIfAbsent m key v1).1 = Set m key v1 := by rw [e1]
  have hhas1 : Has (SetIfAbsent m key v1).1 key = true := by
    rw [f1, Has_eq_Get_snd, Get_Set_self]
  have e2 := SetIfAbsent_present hhas1 v2
  refine ⟨by rw [e1], f1, by rw [e2], by rw [e2], ?_⟩
  rw [e2]
  show Get (SetIfAbsent m key v1).1 key = (v1, true)
  rw [f1]
  exact Get_Set_self m key v1

theorem claim6_witness :
    (SetIfAbsent (NewConcurrentMap : ConcurrentMap Int) "x" (some 1)).2 = true
    ∧ (SetIfAbsent (SetIfAbsent (NewConcurrentMap : ConcurrentMap Int) "x" (some 1)).1
        "x" (some 2)).2 = false
    ∧ Get (SetIfAbsent (SetIfAbsent (NewConcurrentMap : ConcurrentMap Int) "x" (some 1)).1
        "x" (some 2)).1 "x" = (some 1, true) :=
  ⟨(claim6_setIfAbsent NewConcurrentMap "x" (some 1) (some 2) (by decide)).1,
   (claim6_setIfAbsent NewConcurrentMap "x" (some 1) (some 2) (by decide)).2.2.1,
   (claim6_setIfAbsent NewConcurrentMap "x" (some 1) (some 2) (by decide)).2.2.2.2⟩

/-- C7: after `Remove k` — and `Pop k` leaves the very same map — the key is
absent (`Has` false, `Get` misses); `Pop` returns exactly the pre-deletion
`Get` pair, so `(v, true)` when present and `(none, false)` when absent;
other keys are untouched; and deleting an absent key changes nothing. -/
theorem claim7_remove_pop (m : ConcurrentMap α) (key key' : String) :
    Has (Remove m key) key = false
    ∧ Get (Remove m key) key = (none, false)
    ∧ (Pop m key).1 = Remove m key
    ∧ (Pop m key).2 = Get m key
    ∧ Has (Pop m key).1 key = false
    ∧ (key' ≠ key → Get (Remove m key) key' = Get m key')
    ∧ (Has m key = false → Remove m key = m ∧ (Pop m key).2 = (none, false)) := by
  refine ⟨?_, Get_Remove_self m key, rfl, rfl, ?_,
    fun h => Get_Remove_ne m h,
    fun h => ⟨Remove_absent h, Get_absent h⟩⟩
  · rw [Has_eq_Get_snd, Get_Remove_self]
  · show Has (Remove m key) key = false
    rw [Has_eq_Get_snd, Get_Remove_self]

theorem claim7_witness :
    Get (Remove mapAB "a") "b" = Get mapAB "b"
    ∧ Remove mapAB "zzz" = mapAB
    ∧ (Pop mapAB "zzz").2 = (none, false) :=
  ⟨(claim7_remove_pop mapAB "a" "b").2.2.2.2.2.1 (by decide),
   ((claim7_remove_pop mapAB "zzz" "b").2.2.2.2.2.2 (by decide)).1,
   ((claim7_remove_pop mapAB "zzz" "b").2.2.2.2.2.2 (by decide)).2⟩

/-- C8: `Count` is the sum of the per-partition sizes; on a well-formed state
it equals the number of distinct keys present (`Keys` has no duplicate, holds
exactly the present keys, and its length is `Count`); `IsEmpty` holds exactly
when `Count` is 0; and the spec scenario on `set("a",1); set("b",2)` holds,
including after `remove("a")`. -/
theorem claim8_count (m : ConcurrentMap α) (h : WF m) :
    Count m = ((List.finRange totalShardCount).map (fun i => (m i).length)).sum
    ∧ Count m = (Keys m).length
    ∧ (Keys m).Nodup
    ∧ (∀ k, k ∈ Keys m ↔ Has m k = true)
    ∧ (IsEmpty m = true ↔ Count m = 0)
    ∧ Count mapAB = 2
    ∧ (Keys mapAB).Perm ["a", "b"]
    ∧ Count (Remove mapAB "a") = 1
    ∧ Has (Remove mapAB "a") "a" = false
    ∧ Get (Remove mapAB "a") "b" = (some 2, true) := by
  refine ⟨Count_eq_sum m, (length_Keys m).symm, nodup_Keys h, fun k => mem_Keys h k,
    IsEmpty_iff m, by decide, by decide, by decide, by decide, by decide⟩

theorem claim8_witness :
    Count mapAB = (Keys mapAB).length ∧ (Keys mapAB).Nodup :=
  ⟨(claim8_count mapAB (by decide)).2.1, (claim8_count mapAB (by decide)).2.2.1⟩

/-- C9: the routing invariant — every key stored in partition `i` routes to
`i` and partitions bind each key at most once — holds for the freshly built
map and is preserved by `Set`, `MSet`, `SetIfAbsent`, `UpdateOrInsert`,
`Remove` and `Pop`; under it, any key present in two partitions forces them
to be the same partition, the one the router selects. -/
theorem claim9_partition_invariant (m : ConcurrentMap α) (key : String)
    (value : Option α) (cb : UpdateOrInsertCb α) (data : List (String × Option α))
    (k : String) (i j : Fin totalShardCount) :
    WF (NewConcurrentMap (α := α))
    ∧ (WF m → WF (Set m key value))
    ∧ (WF m → WF (MSet m data))
    ∧ (WF m → WF (SetIfAbsent m key value).1)
    ∧ (WF m → WF (UpdateOrInsert m key value cb).1)
    ∧ (WF m → WF (Remove m key))
    ∧ (WF m → WF (Pop m key).1)
    ∧ (WF m → k ∈ (m i).map Prod.fst → k ∈ (m j).map Prod.fst →
        i = j ∧ i = shardIndex k) :=
  ⟨WF_NewConcurrentMap,
   fun h => WF_Set h key value,
   fun h => WF_MSet h data,
   fun h => WF_SetIfAbsent h key value,
   fun h => WF_UpdateOrInsert h key value cb,
   fun h => WF_Remove h key,
   fun h => WF_Pop h key,
   fun h hi hj => WF_key_unique h hi hj⟩

theorem claim9_witness :
    WF (Set mapAB "x" (some 3)) ∧ WF (Remove mapAB "a") :=
  ⟨(claim9_partition_invariant mapAB "x" (some 3) addCombinator [] "a"
      (shardIndex "a") (shardIndex "a")).2.1 (by decide),
   (claim9_partition_invariant mapAB "a" (some 3) addCombinator [] "a"
      (shardIndex "a") (shardIndex "a")).2.2.2.2.2.1 (by decide)⟩

/-- C10: on an absent key, `Get` and `Pop` return the zero value `nil`
(modelled `none`) with flag `false`; `UpdateOrInsert` hands the combinator
`nil` as the current value; and a key stored with value `nil` is told apart
from an absent key only by the flag — the value components agree. -/
theorem claim10_nil_absent (m : ConcurrentMap α) (key : String) (value : Option α)
    (cb : UpdateOrInsertCb α) (h : Has m key = false) :
    Get m key = (none, false)
    ∧ (Pop m key).2 = (none, false)
    ∧ (UpdateOrInsert m key value cb).2 = cb false none value
    ∧ Get (Set m key none) key = (none, true)
    ∧ (Get (Set m key none) key).1 = (Get m key).1 := by
  have hg := Get_absent h
  refine ⟨hg, hg, ?_, Get_Set_self m key none, ?_⟩
  · show cb (Get m key).2 (Get m key).1 value = cb false none value
    rw [hg]
  · rw [Get_Set_self, hg]

theorem claim10_witness :
    Get mapAB "zzz" = (none, false) ∧ (Pop mapAB "zzz").2 = (none, false) :=
  ⟨(claim10_nil_absent mapAB "zzz" (some 7) addCombinator (by decide)).1,
   (claim10_nil_absent mapAB "zzz" (some 7) addCombinator (by decide)).2.1⟩

theorem claim4_witness :
    (shardIndex "a").1 < totalShardCount ∧ shardIndex "a" = shardIndex "a" :=
  ⟨(claim4_router mapAB "a" "a").2.2.2.1,
   (claim4_router mapAB "a" "a").2.2.2.2.2.2 rfl⟩

end Logger
